import Mathlib

/-!
Verification of the shared-state core of `folly/futures/detail/Core.h`
(the `Core<T>` class, plus the variadic collect contexts), against the
natural-language specification of the repository.

The C++ code is shallowly embedded: the `Core<T>` object becomes the
record `CoreSt`, and each member function becomes a Lean function on
that record.  Operations that can throw (`setResult`, `setCallback`,
the `assert` in `detachOne`, running a non-existent executor job)
return the updated state paired with an optional error.  Executor
dispatch is modelled by an abstract executor descriptor (`Exec`): a
submitted job is counted in `pendingJobs` and a separate `runJob`
operation makes the executor run it; an executor whose `add` /
`addWithPriority` throws is one with `addFails = true`.

Ghost instrumentation (not present in the C++ object, used only to
observe behaviour): `calls` records, in order, the `Try` values that
were delivered to the registered callback (`callback_(...)` call
sites); `handlerCalls` records the error values delivered to an
interrupt handler; `bumps` counts the `++attached_` executor bumps;
`pendingJobs` counts submitted-but-not-yet-run executor jobs;
`deleted` records that `delete this` ran in `detachOne`.

A single-threaded interleaving semantics is used: every entry point of
the class runs atomically (in the source each transition is a CAS on
the atomic state word plus spinlock-protected side channels, so any
concurrent execution linearizes into such an interleaving).
-/

namespace FollyCore

/-- Type-erased error payloads (`exception_wrapper` contents and thrown
exceptions): the broken-promise error, the not-ready error, a
`std::logic_error` with its message, and arbitrary other exceptions
(such as those thrown by `Executor::add`), distinguished by a tag. -/
inductive Exc where
  | brokenPromise : Exc
  | futureNotReady : Exc
  | logicMsg : String → Exc
  | other : Nat → Exc
deriving DecidableEq, Repr

/-- `Try<T>`: either a value or an error. -/
inductive Try (α : Type) where
  | val : α → Try α
  | exn : Exc → Try α
deriving DecidableEq, Repr

/-- The five-state FSM word of `Core` (`enum class State` in the source). -/
inductive State where
  | start
  | onlyResult
  | onlyCallback
  | armed
  | done
deriving DecidableEq, Repr

/-- Abstract executor: how many priority classes it reports, whether a
submission (`add` / `addWithPriority`) throws, and which exception it
throws in that case. -/
structure Exec where
  numPriorities : Nat
  addFails : Bool
  failExc : Exc
deriving DecidableEq, Repr

/-- The state of one `Core<T>` object.  Fields up to `interruptHandler`
mirror the C++ data members (`fsm_`, `attached_`, `active_`,
`result_`, `callback_` presence, `context_`, `executor_`, `priority_`,
`interrupt_`, `interruptHandler_` presence); the remaining fields are
ghost instrumentation described in the file header.  The request
context is modelled as an abstract `Nat` token. -/
structure CoreSt (α : Type) where
  fsm : State
  attached : Nat
  active : Bool
  result : Option (Try α)
  hasCallback : Bool
  context : Option Nat
  executor : Option Exec
  priority : Int
  interrupt : Option Exc
  interruptHandler : Bool
  calls : List (Try α)
  handlerCalls : List Exc
  bumps : Nat
  pendingJobs : Nat
  deleted : Bool
deriving DecidableEq, Repr

/-- Errors that escape an operation: `std::logic_error` from the two
ingress points, a failed `assert` in `detachOne` (decrement below
zero), using the core after `delete this`, and asking the executor to
run a job that was never submitted. -/
inductive RunErr where
  | logicError : String → RunErr
  | assertFail : RunErr
  | useAfterFree : RunErr
  | noJob : RunErr
deriving DecidableEq, Repr

variable {α : Type}

/-- `Core::hasResult`: true in states `OnlyResult`, `Armed`, `Done`. -/
def hasResult (s : CoreSt α) : Bool :=
  match s.fsm with
  | .onlyResult => true
  | .armed => true
  | .done => true
  | _ => false

/-- `Core::ready`: alias for `hasResult`. -/
def ready (s : CoreSt α) : Bool :=
  hasResult s

/-- `Core::getTry`: the stored result if ready, otherwise the
`FutureNotReady` error. -/
def getTry (s : CoreSt α) : Except Exc (Try α) :=
  if ready s then
    match s.result with
    | some t => .ok t
    | none => .error .futureNotReady
  else
    .error .futureNotReady

/-- `Core::detachOne`: `--attached_` and `delete this` on reaching 0.
A decrement below zero is the failed `assert` (modelled as an error). -/
def detachOne (s : CoreSt α) : CoreSt α × Option RunErr :=
  if s.attached = 0 then
    (s, some .assertFail)
  else if s.attached - 1 = 0 then
    ({ s with attached := s.attached - 1, deleted := true }, none)
  else
    ({ s with attached := s.attached - 1 }, none)

/-- `Core::doCallback`: snapshot the executor; with an executor bound,
`++attached_` and submit a job that will deliver the result (counted
in `pendingJobs`); if submission throws, the catch block replaces the
result with the submission error and invokes the callback inline —
note that in this source the catch block does NOT undo the
`++attached_` bump.  With no executor, invoke the callback inline with
the stored result. -/
def doCallback (s : CoreSt α) : CoreSt α :=
  match s.executor with
  | some x =>
      let s1 := { s with attached := s.attached + 1, bumps := s.bumps + 1 }
      if x.addFails then
        let t : Try α := .exn x.failExc
        { s1 with result := some t, calls := s1.calls ++ [t] }
      else
        { s1 with pendingJobs := s1.pendingJobs + 1 }
  | none =>
      match s.result with
      | some t => { s with calls := s.calls ++ [t] }
      | none => s

/-- `Core::maybeCallback`: only from `Armed`, and only when `active_`,
CAS to `Done` and run `doCallback`. -/
def maybeCallback (s : CoreSt α) : CoreSt α :=
  match s.fsm with
  | .armed =>
      if s.active then doCallback { s with fsm := .done } else s
  | _ => s

/-- `Core::setCallback`: capture the ambient request context and
install the callback inside the successful transition (`Start →
OnlyCallback` or `OnlyResult → Armed`, the latter followed by
`maybeCallback`); from `OnlyCallback`, `Armed` or `Done`, throw
`std::logic_error("setCallback called twice")` with no mutation. -/
def setCallback (ctx : Nat) (s : CoreSt α) : CoreSt α × Option RunErr :=
  match s.fsm with
  | .start =>
      ({ s with fsm := .onlyCallback, context := some ctx, hasCallback := true },
        none)
  | .onlyResult =>
      (maybeCallback
        { s with fsm := .armed, context := some ctx, hasCallback := true },
        none)
  | _ => (s, some (.logicError "setCallback called twice"))

/-- `Core::setResult`: install the result inside the successful
transition (`Start → OnlyResult` or `OnlyCallback → Armed`, the latter
followed by `maybeCallback`); from `OnlyResult`, `Armed` or `Done`,
throw `std::logic_error("setResult called twice")` with no mutation. -/
def setResult (t : Try α) (s : CoreSt α) : CoreSt α × Option RunErr :=
  match s.fsm with
  | .start =>
      ({ s with fsm := .onlyResult, result := some t }, none)
  | .onlyCallback =>
      (maybeCallback { s with fsm := .armed, result := some t }, none)
  | _ => (s, some (.logicError "setResult called twice"))

/-- `Core::deactivate`: `active_ = false`. -/
def deactivate (s : CoreSt α) : CoreSt α :=
  { s with active := false }

/-- `Core::activate`: `active_ = true` then `maybeCallback()`. -/
def activate (s : CoreSt α) : CoreSt α :=
  maybeCallback { s with active := true }

/-- `Core::detachFuture`: `activate()` then `detachOne()`. -/
def detachFuture (s : CoreSt α) : CoreSt α × Option RunErr :=
  detachOne (activate s)

/-- `Core::detachPromise`: if no result was ever set, synthesize a
`BrokenPromise` result via `setResult`, then `detachOne()`. -/
def detachPromise (s : CoreSt α) : CoreSt α × Option RunErr :=
  match s.result with
  | none =>
      let r := setResult (.exn .brokenPromise) s
      match r.2 with
      | some e => (r.1, some e)
      | none => detachOne r.1
  | some _ => detachOne s

/-- `Core::setExecutor`: store the executor pointer and priority under
the executor spinlock. -/
def setExecutor (x : Option Exec) (prio : Int) (s : CoreSt α) : CoreSt α :=
  { s with executor := x, priority := prio }

/-- `Core::raise`: under the interrupt spinlock, if no interrupt is
pending and no result exists, store the interrupt and, if a handler is
installed, invoke it with the interrupt. -/
def raise (e : Exc) (s : CoreSt α) : CoreSt α :=
  if s.interrupt.isNone && !hasResult s then
    if s.interruptHandler then
      { s with interrupt := some e, handlerCalls := s.handlerCalls ++ [e] }
    else
      { s with interrupt := some e }
  else
    s

/-- `Core::setInterruptHandler`: under the interrupt spinlock, if no
result exists, invoke the new handler immediately when an interrupt
already landed (without storing the handler), otherwise store it. -/
def setInterruptHandler (s : CoreSt α) : CoreSt α :=
  if hasResult s then
    s
  else
    match s.interrupt with
    | some e => { s with handlerCalls := s.handlerCalls ++ [e] }
    | none => { s with interruptHandler := true }

/-- The bound executor runs one previously submitted job: the job
invokes the callback with the moved-out result and, on scope exit,
calls `detachOne`. -/
def runJob (s : CoreSt α) : CoreSt α × Option RunErr :=
  if s.pendingJobs = 0 then
    (s, some .noJob)
  else
    detachOne
      { s with pendingJobs := s.pendingJobs - 1,
               calls := s.calls ++ [s.result.getD (.exn .futureNotReady)] }

/-- One externally invokable operation on a core. -/
inductive Op (α : Type) where
  | setResult (t : Try α)
  | setCallback (ctx : Nat)
  | activate
  | deactivate
  | detachFuture
  | detachPromise
  | setExecutor (x : Option Exec) (prio : Int)
  | raise (e : Exc)
  | setInterruptHandler
  | runJob
deriving DecidableEq, Repr

/-- Dispatch one operation to the member function it names. -/
def dispatch : Op α → CoreSt α → CoreSt α × Option RunErr
  | .setResult t, s => setResult t s
  | .setCallback ctx, s => setCallback ctx s
  | .activate, s => (activate s, none)
  | .deactivate, s => (deactivate s, none)
  | .detachFuture, s => detachFuture s
  | .detachPromise, s => detachPromise s
  | .setExecutor x prio, s => (setExecutor x prio s, none)
  | .raise e, s => (raise e s, none)
  | .setInterruptHandler, s => (setInterruptHandler s, none)
  | .runJob, s => runJob s

/-- Apply one operation.  Any use of the core after `delete this` is
the `useAfterFree` error (legal histories never do it). -/
def applyOp (o : Op α) (s : CoreSt α) : CoreSt α × Option RunErr :=
  if s.deleted then
    (s, some .useAfterFree)
  else
    dispatch o s

/-- Run a sequence of operations, stopping at the first error.  A
sequence is legal exactly when the returned error component is
`none`. -/
def run : CoreSt α → List (Op α) → CoreSt α × Option RunErr
  | s, [] => (s, none)
  | s, o :: rest =>
      match applyOp o s with
      | (s', none) => run s' rest
      | (s', some e) => (s', some e)

/-- The state produced by the default constructor `Core()`:
`fsm_ = Start`, `attached_ = 2`, `active_ = true`, everything else
empty. -/
def coreInit (α : Type) : CoreSt α :=
  { fsm := .start
    attached := 2
    active := true
    result := none
    hasCallback := false
    context := none
    executor := none
    priority := -1
    interrupt := none
    interruptHandler := false
    calls := []
    handlerCalls := []
    bumps := 0
    pendingJobs := 0
    deleted := false }

/-- The state produced by the constructor `Core(Try<T>&&)`:
`fsm_ = OnlyResult`, `attached_ = 1`, with the result installed. -/
def coreInitWithResult (t : Try α) : CoreSt α :=
  { coreInit α with fsm := .onlyResult, attached := 1, result := some t }

/-- The four operations of the producer/consumer rendezvous proper. -/
def Op.isCore4 : Op α → Bool
  | .setResult _ => true
  | .setCallback _ => true
  | .activate => true
  | .deactivate => true
  | _ => false

/-- The lifecycle operations: the four rendezvous operations plus the
two handle detachments. -/
def Op.isLifecycle : Op α → Bool
  | .setResult _ => true
  | .setCallback _ => true
  | .activate => true
  | .deactivate => true
  | .detachFuture => true
  | .detachPromise => true
  | _ => false

/-!
The variadic collect contexts.  `CollectVariadicContext` (fail-fast)
holds a tuple of value slots (modelled as a list of `Option α`: `none`
is a default-constructed slot), the producer handle `p` of the
aggregate (its fulfilled outcome is `promiseVal`, with `promiseSets`
counting how many `setValue` / `setException` calls were made on it),
and the guard `threw`.  In the source, `threw` is declared
`std::atomic<bool> threw;` and the user-provided default constructor
`CollectVariadicContext() {}` never initializes it, so its initial
value is indeterminate; the embedding therefore takes the initial
value of `threw` as a parameter of `collectInit`. -/

/-- What the aggregate promise was fulfilled with: a tuple of value
slots (`setValue`) or an error (`setException`). -/
inductive PromiseOut (α : Type) where
  | value : List (Option α) → PromiseOut α
  | error : Exc → PromiseOut α
deriving DecidableEq, Repr

/-- The fail-fast `CollectVariadicContext<Ts...>`. -/
structure CollectCtx (α : Type) where
  threw : Bool
  results : List (Option α)
  promiseVal : Option (PromiseOut α)
  promiseSets : Nat
deriving DecidableEq, Repr

/-- `CollectVariadicContext()` over `n` inputs: value slots default-
constructed, promise unfulfilled, and `threw` left uninitialized —
its indeterminate initial value is the parameter `threw0`. -/
def collectInit (α : Type) (n : Nat) (threw0 : Bool) : CollectCtx α :=
  { threw := threw0
    results := List.replicate n none
    promiseVal := none
    promiseSets := 0 }

/-- `CollectVariadicContext::setPartialResult<T, I>`: on an errorful
`Try`, `threw.exchange(true)` and, if the old value was false, deliver
the error through the promise; on a value, store it in slot `I` when
`threw` is still false. -/
def setPartialResult (i : Nat) (t : Try α) (c : CollectCtx α) : CollectCtx α :=
  match t with
  | .exn e =>
      if c.threw then
        { c with threw := true }
      else
        { c with threw := true
                 promiseVal := some (.error e)
                 promiseSets := c.promiseSets + 1 }
  | .val v =>
      if c.threw then c
      else { c with results := c.results.set i (some v) }

/-- `CollectVariadicContext::~CollectVariadicContext`:
`threw.exchange(true)` and, if the old value was false, deliver the
tuple of slots through the promise. -/
def collectDtor (c : CollectCtx α) : CollectCtx α :=
  if c.threw then
    { c with threw := true }
  else
    { c with threw := true
             promiseVal := some (.value c.results)
             promiseSets := c.promiseSets + 1 }

/-- A whole fail-fast collect run over `n` slots: the inputs complete
in the given order (each `(i, t)` pair is slot index `i` receiving
outcome `t`), then the context is destroyed. -/
def collectRun (α : Type) (threw0 : Bool) (n : Nat)
    (arrivals : List (Nat × Try α)) : CollectCtx α :=
  collectDtor
    (arrivals.foldl (fun c p => setPartialResult p.1 p.2 c)
      (collectInit α n threw0))

/-!
### The master state invariant

`Inv0` collects the facts preserved by every operation; `Inv` adds the
quiescence fact that an active core is never left parked in `Armed`
(every entry point that can produce `Armed` while active immediately
runs `maybeCallback`).  The conjunct
`calls.length + pendingJobs = (1 if Done else 0)` is the heart of the
at-most-once guarantee: before `Done` the callback has never been
invoked and no job exists; from `Done` on, exactly one invocation
happened or is pending with the executor. -/

def Inv0 (s : CoreSt α) : Prop :=
  s.calls.length + s.pendingJobs = (if s.fsm = State.done then 1 else 0)
  ∧ (s.fsm ≠ State.done → s.bumps = 0)
  ∧ s.bumps ≤ 1
  ∧ s.attached ≤ 2 + s.bumps
  ∧ (s.deleted = true ↔ s.attached = 0)
  ∧ (hasResult s = true ↔ s.result.isSome = true)

def Inv (s : CoreSt α) : Prop :=
  (s.active = true → s.fsm ≠ State.armed) ∧ Inv0 s

/-- True once the consumer's callback has arrived (including after it
was consumed by the `Armed → Done` dispatch). -/
def cbArrived (s : CoreSt α) : Bool :=
  match s.fsm with
  | .onlyCallback => true
  | .armed => true
  | .done => true
  | _ => false

/-- Provenance: the result slot holds `t`, the core is executor-free,
and every delivery made so far delivered exactly `t`. -/
def Prov (t : Try α) (s : CoreSt α) : Prop :=
  s.executor = none ∧ s.result = some t ∧ (∀ u ∈ s.calls, u = t)

/-- Broken-promise provenance: with no executor and no result yet (or
the synthesized broken-promise result), every delivery made so far
delivered the broken-promise error. -/
def ProvBP (s : CoreSt α) : Prop :=
  s.executor = none
  ∧ (s.result = none ∨ s.result = some (Try.exn Exc.brokenPromise))
  ∧ (∀ u ∈ s.calls, u = Try.exn Exc.brokenPromise)

/-- An executor whose `add` / `addWithPriority` throws (the thrown
exception is the one tagged 7). -/
def throwingExec : Exec :=
  { numPriorities := 1, addFails := true, failExc := .other 7 }

/-- A concrete core in the `Done` state: a complete rendezvous over
`Nat` with the value 1 delivered. -/
def doneSt : CoreSt Nat :=
  (run (coreInit Nat) [Op.setCallback 0, Op.setResult (Try.val 1)]).1


theorem inv_coreInit (α : Type) : Inv (coreInit α) := by
  simp [Inv, Inv0, coreInit, hasResult]

theorem inv_coreInitWithResult (t : Try α) : Inv (coreInitWithResult t) := by
  simp [Inv, Inv0, coreInitWithResult, coreInit, hasResult]

theorem maybeCallback_inv (s : CoreSt α) (h : Inv0 s) (hdel : s.deleted = false) :
    Inv (maybeCallback s) := by
  obtain ⟨fsm, att, act, res, hcb, ctx, ex, pr, itr, ihd, cs, hcs, bp, pj, del⟩ := s
  obtain ⟨h2, h3, h4, h5, h6, h7⟩ := h
  simp only at hdel
  subst hdel
  cases fsm
  case start => simp_all [Inv, Inv0, maybeCallback, hasResult]
  case onlyResult => simp_all [Inv, Inv0, maybeCallback, hasResult]
  case onlyCallback => simp_all [Inv, Inv0, maybeCallback, hasResult]
  case done => simp_all [Inv, Inv0, maybeCallback, hasResult]
  case armed =>
    cases act
    case false => simp_all [Inv, Inv0, maybeCallback, hasResult]
    case true =>
      rcases ex with _ | x
      · rcases res with _ | t
        · simp_all [Inv0, hasResult]
        · simp_all [Inv, Inv0, maybeCallback, doCallback, hasResult]
      · cases hx : x.addFails <;>
          simp_all [Inv, Inv0, maybeCallback, doCallback, hasResult] <;>
          omega

theorem detachOne_inv (s : CoreSt α) (h : Inv s) : Inv (detachOne s).1 := by
  obtain ⟨fsm, att, act, res, hcb, ctx, ex, pr, itr, ihd, cs, hcs, bp, pj, del⟩ := s
  obtain ⟨h1, h2, h3, h4, h5, h6, h7⟩ := h
  rcases att with _ | n
  · exact ⟨h1, h2, h3, h4, h5, h6, h7⟩
  · rcases n with _ | m <;>
      simp_all [Inv, Inv0, detachOne, hasResult] <;>
      omega

theorem setResult_inv (t : Try α) (s : CoreSt α) (h : Inv s)
    (hdel : s.deleted = false) : Inv (setResult t s).1 := by
  obtain ⟨fsm, att, act, res, hcb, ctx, ex, pr, itr, ihd, cs, hcs, bp, pj, del⟩ := s
  obtain ⟨h1, h2, h3, h4, h5, h6, h7⟩ := h
  simp only at hdel
  subst hdel
  cases fsm
  case start => simp_all [Inv, Inv0, setResult, hasResult]
  case onlyCallback =>
    refine maybeCallback_inv _ ⟨?_, ?_, ?_, ?_, ?_, ?_⟩ rfl <;>
      simp_all [hasResult]
  case onlyResult => exact ⟨h1, h2, h3, h4, h5, h6, h7⟩
  case armed => exact ⟨h1, h2, h3, h4, h5, h6, h7⟩
  case done => exact ⟨h1, h2, h3, h4, h5, h6, h7⟩

theorem setCallback_inv (c : Nat) (s : CoreSt α) (h : Inv s)
    (hdel : s.deleted = false) : Inv (setCallback c s).1 := by
  obtain ⟨fsm, att, act, res, hcb, ctx, ex, pr, itr, ihd, cs, hcs, bp, pj, del⟩ := s
  obtain ⟨h1, h2, h3, h4, h5, h6, h7⟩ := h
  simp only at hdel
  subst hdel
  cases fsm
  case start => simp_all [Inv, Inv0, setCallback, hasResult]
  case onlyResult =>
    refine maybeCallback_inv _ ⟨?_, ?_, ?_, ?_, ?_, ?_⟩ rfl <;>
      simp_all [hasResult]
  case onlyCallback => exact ⟨h1, h2, h3, h4, h5, h6, h7⟩
  case armed => exact ⟨h1, h2, h3, h4, h5, h6, h7⟩
  case done => exact ⟨h1, h2, h3, h4, h5, h6, h7⟩

theorem activate_inv (s : CoreSt α) (h : Inv s) (hdel : s.deleted = false) :
    Inv (activate s) := by
  exact maybeCallback_inv _ h.2 hdel

theorem detachPromise_inv (s : CoreSt α) (h : Inv s) (hdel : s.deleted = false) :
    Inv (detachPromise s).1 := by
  unfold detachPromise
  rcases hres : s.result with _ | t
  · rcases he : (setResult (.exn .brokenPromise) s).2 with _ | e
    · simp only [hres, he]
      refine detachOne_inv _ (setResult_inv _ _ h hdel)
    · simp only [hres, he]
      exact setResult_inv _ _ h hdel
  · exact detachOne_inv _ h

theorem runJob_inv (s : CoreSt α) (h : Inv s) : Inv (runJob s).1 := by
  unfold runJob
  rcases hpj : s.pendingJobs with _ | n
  · simpa using h
  · rw [if_neg (by omega)]
    refine detachOne_inv _ ?_
    obtain ⟨h1, h2, h3, h4, h5, h6, h7⟩ := h
    have hd : s.fsm = State.done := by
      by_contra hcon
      simp [hcon, hpj] at h2
    refine ⟨?_, ?_, ?_, ?_, ?_, ?_, ?_⟩ <;>
      simp_all [hasResult] <;> omega

theorem applyOp_inv (o : Op α) (s : CoreSt α) (h : Inv s) :
    Inv (applyOp o s).1 := by
  by_cases hdel : s.deleted = true
  · simpa [applyOp, hdel] using h
  · simp only [Bool.not_eq_true] at hdel
    have happ : applyOp o s = dispatch o s := by
      simp [applyOp, hdel]
    rw [happ]
    cases o with
    | setResult t => exact setResult_inv t s h hdel
    | setCallback c => exact setCallback_inv c s h hdel
    | activate => exact activate_inv s h hdel
    | deactivate =>
        obtain ⟨h1, h2, h3, h4, h5, h6, h7⟩ := h
        simp only [dispatch]
        exact ⟨by simp [deactivate], h2, h3, h4, h5, h6, h7⟩
    | detachFuture => exact detachOne_inv _ (activate_inv s h hdel)
    | detachPromise => exact detachPromise_inv s h hdel
    | setExecutor x p =>
        obtain ⟨h1, h2, h3, h4, h5, h6, h7⟩ := h
        exact ⟨h1, h2, h3, h4, h5, h6, h7⟩
    | raise e =>
        obtain ⟨h1, h2, h3, h4, h5, h6, h7⟩ := h
        simp only [dispatch]
        unfold raise
        split
        · split <;> exact ⟨h1, h2, h3, h4, h5, h6, h7⟩
        · exact ⟨h1, h2, h3, h4, h5, h6, h7⟩
    | setInterruptHandler =>
        obtain ⟨h1, h2, h3, h4, h5, h6, h7⟩ := h
        simp only [dispatch]
        unfold setInterruptHandler
        split
        · exact ⟨h1, h2, h3, h4, h5, h6, h7⟩
        · split <;> exact ⟨h1, h2, h3, h4, h5, h6, h7⟩
    | runJob => exact runJob_inv s h

theorem run_inv (ops : List (Op α)) (s : CoreSt α) (h : Inv s) :
    Inv (run s ops).1 := by
  induction ops generalizing s with
  | nil => exact h
  | cons o rest ih =>
      rw [run]
      rcases happ : applyOp o s with ⟨s', e⟩
      have h' : Inv s' := by
        have := applyOp_inv o s h
        rwa [happ] at this
      cases e
      · exact ih s' h'
      · exact h'

/-!
### Frame and monotonicity lemmas -/

theorem doCallback_fsm (s : CoreSt α) : (doCallback s).fsm = s.fsm := by
  obtain ⟨fsm, att, act, res, hcb, ctx, ex, pr, itr, ihd, cs, hcs, bp, pj, del⟩ := s
  rcases ex with _ | x
  · rcases res with _ | t <;> simp [doCallback]
  · cases hx : x.addFails <;> simp [doCallback, hx]

theorem maybeCallback_fsm (s : CoreSt α) :
    (maybeCallback s).fsm = s.fsm ∨ (maybeCallback s).fsm = State.done := by
  obtain ⟨fsm, att, act, res, hcb, ctx, ex, pr, itr, ihd, cs, hcs, bp, pj, del⟩ := s
  cases fsm <;> cases act <;> simp [maybeCallback, doCallback_fsm]

theorem detachOne_frame (s : CoreSt α) :
    (detachOne s).1.fsm = s.fsm ∧ (detachOne s).1.result = s.result
    ∧ (detachOne s).1.calls = s.calls ∧ (detachOne s).1.executor = s.executor
    ∧ (detachOne s).1.pendingJobs = s.pendingJobs
    ∧ (detachOne s).1.active = s.active := by
  unfold detachOne
  split
  · simp
  · split <;> simp

/-- With no executor bound, `maybeCallback` changes nothing except
possibly performing the `Armed → Done` transition and delivering the
stored result to the callback inline. -/
theorem maybeCallback_noexec (s : CoreSt α) (hex : s.executor = none) :
    (maybeCallback s).executor = none
    ∧ (maybeCallback s).result = s.result
    ∧ (maybeCallback s).pendingJobs = s.pendingJobs
    ∧ (maybeCallback s).attached = s.attached
    ∧ (maybeCallback s).deleted = s.deleted
    ∧ (maybeCallback s).interrupt = s.interrupt
    ∧ (maybeCallback s).handlerCalls = s.handlerCalls
    ∧ ((maybeCallback s).calls = s.calls
        ∨ ∃ t, s.result = some t ∧ (maybeCallback s).calls = s.calls ++ [t]
            ∧ (maybeCallback s).fsm = State.done ∧ s.fsm = State.armed
            ∧ s.active = true) := by
  obtain ⟨fsm, att, act, res, hcb, ctx, ex, pr, itr, ihd, cs, hcs, bp, pj, del⟩ := s
  simp only at hex
  subst hex
  cases fsm <;> cases act <;> rcases res with _ | t <;>
    simp [maybeCallback, doCallback]

theorem hasResult_iff (s : CoreSt α) :
    hasResult s = true ↔
      (s.fsm = State.onlyResult ∨ s.fsm = State.armed ∨ s.fsm = State.done) := by
  cases hf : s.fsm <;> simp [hasResult, hf]

theorem hasResult_congr {s u : CoreSt α} (h : s.fsm = u.fsm) :
    hasResult s = hasResult u := by
  unfold hasResult
  rw [h]

theorem hasResult_maybeCallback (s : CoreSt α) (h : hasResult s = true) :
    hasResult (maybeCallback s) = true := by
  rcases maybeCallback_fsm s with hm | hm
  · rwa [hasResult_congr hm]
  · rw [hasResult_iff, hm]
    simp

theorem raise_frame (e : Exc) (s : CoreSt α) :
    (raise e s).fsm = s.fsm ∧ (raise e s).calls = s.calls
    ∧ (raise e s).result = s.result ∧ (raise e s).executor = s.executor
    ∧ (raise e s).pendingJobs = s.pendingJobs
    ∧ (raise e s).attached = s.attached
    ∧ (raise e s).active = s.active ∧ (raise e s).deleted = s.deleted := by
  unfold raise
  split
  · split <;> simp
  · simp

theorem setInterruptHandler_frame (s : CoreSt α) :
    (setInterruptHandler s).fsm = s.fsm
    ∧ (setInterruptHandler s).calls = s.calls
    ∧ (setInterruptHandler s).result = s.result
    ∧ (setInterruptHandler s).executor = s.executor
    ∧ (setInterruptHandler s).pendingJobs = s.pendingJobs
    ∧ (setInterruptHandler s).attached = s.attached
    ∧ (setInterruptHandler s).active = s.active
    ∧ (setInterruptHandler s).deleted = s.deleted := by
  unfold setInterruptHandler
  split
  · simp
  · split <;> simp

theorem hasResult_step (o : Op α) (s : CoreSt α) (h : hasResult s = true) :
    hasResult (applyOp o s).1 = true := by
  by_cases hdel : s.deleted = true
  · simpa [applyOp, hdel] using h
  · simp only [Bool.not_eq_true] at hdel
    have happ : applyOp o s = dispatch o s := by simp [applyOp, hdel]
    rw [happ]
    have hiff := (hasResult_iff s).1 h
    cases o with
    | setResult t =>
        rcases hiff with hf | hf | hf <;> simp [dispatch, setResult, hf, hasResult]
    | setCallback c =>
        rcases hiff with hf | hf | hf
        · simp only [dispatch, setCallback, hf]
          apply hasResult_maybeCallback
          rw [hasResult_iff]
          simp
        · simp [dispatch, setCallback, hf, hasResult]
        · simp [dispatch, setCallback, hf, hasResult]
    | activate =>
        simp only [dispatch, activate]
        apply hasResult_maybeCallback
        rwa [hasResult_iff]
    | deactivate =>
        simpa [dispatch, deactivate, hasResult_iff] using hiff
    | detachFuture =>
        simp only [dispatch, detachFuture]
        rw [hasResult_congr (detachOne_frame _).1]
        apply hasResult_maybeCallback
        rwa [hasResult_iff]
    | detachPromise =>
        rcases hres : s.result with _ | t
        · rcases hiff with hf | hf | hf <;>
            simp [dispatch, detachPromise, hres, setResult, hf, hasResult]
        · simp only [dispatch, detachPromise, hres]
          rwa [hasResult_congr (detachOne_frame _).1]
    | setExecutor x p =>
        simpa [dispatch, setExecutor, hasResult_iff] using hiff
    | raise e =>
        simp only [dispatch]
        rwa [hasResult_congr (raise_frame e s).1]
    | setInterruptHandler =>
        simp only [dispatch]
        rwa [hasResult_congr (setInterruptHandler_frame s).1]
    | runJob =>
        simp only [dispatch]
        unfold runJob
        split
        · exact h
        · rw [hasResult_congr (detachOne_frame _).1]
          simpa [hasResult_iff] using hiff

theorem hasResult_run (ops : List (Op α)) (s : CoreSt α)
    (h : hasResult s = true) : hasResult (run s ops).1 = true := by
  induction ops generalizing s with
  | nil => exact h
  | cons o rest ih =>
      rw [run]
      rcases happ : applyOp o s with ⟨s', e⟩
      have h' := hasResult_step o s h
      rw [happ] at h'
      cases e
      · exact ih s' h'
      · exact h'

theorem cbArrived_iff (s : CoreSt α) :
    cbArrived s = true ↔
      (s.fsm = State.onlyCallback ∨ s.fsm = State.armed
        ∨ s.fsm = State.done) := by
  cases hf : s.fsm <;> simp [cbArrived, hf]

theorem cbArrived_congr {s u : CoreSt α} (h : s.fsm = u.fsm) :
    cbArrived s = cbArrived u := by
  unfold cbArrived
  rw [h]

theorem cbArrived_maybeCallback (s : CoreSt α) (h : cbArrived s = true) :
    cbArrived (maybeCallback s) = true := by
  rcases maybeCallback_fsm s with hm | hm
  · rwa [cbArrived_congr hm]
  · rw [cbArrived_iff, hm]
    simp

theorem cbArrived_step (o : Op α) (s : CoreSt α) (h : cbArrived s = true) :
    cbArrived (applyOp o s).1 = true := by
  by_cases hdel : s.deleted = true
  · simpa [applyOp, hdel] using h
  · simp only [Bool.not_eq_true] at hdel
    have happ : applyOp o s = dispatch o s := by simp [applyOp, hdel]
    rw [happ]
    have hiff := (cbArrived_iff s).1 h
    cases o with
    | setResult t =>
        rcases hiff with hf | hf | hf
        · simp only [dispatch, setResult, hf]
          apply cbArrived_maybeCallback
          rw [cbArrived_iff]
          simp
        · simp [dispatch, setResult, hf, cbArrived]
        · simp [dispatch, setResult, hf, cbArrived]
    | setCallback c =>
        rcases hiff with hf | hf | hf <;>
          simp [dispatch, setCallback, hf, cbArrived]
    | activate =>
        simp only [dispatch, activate]
        apply cbArrived_maybeCallback
        rwa [cbArrived_iff]
    | deactivate =>
        simpa [dispatch, deactivate, cbArrived_iff] using hiff
    | detachFuture =>
        simp only [dispatch, detachFuture]
        rw [cbArrived_congr (detachOne_frame _).1]
        apply cbArrived_maybeCallback
        rwa [cbArrived_iff]
    | detachPromise =>
        rcases hres : s.result with _ | t
        · rcases hiff with hf | hf | hf
          · simp only [dispatch, detachPromise, hres, setResult, hf]
            rw [cbArrived_congr (detachOne_frame _).1]
            apply cbArrived_maybeCallback
            rw [cbArrived_iff]
            simp
          · simp [dispatch, detachPromise, hres, setResult, hf, cbArrived]
          · simp [dispatch, detachPromise, hres, setResult, hf, cbArrived]
        · simp only [dispatch, detachPromise, hres]
          rwa [cbArrived_congr (detachOne_frame _).1]
    | setExecutor x p =>
        simpa [dispatch, setExecutor, cbArrived_iff] using hiff
    | raise e =>
        simp only [dispatch]
        rwa [cbArrived_congr (raise_frame e s).1]
    | setInterruptHandler =>
        simp only [dispatch]
        rwa [cbArrived_congr (setInterruptHandler_frame s).1]
    | runJob =>
        simp only [dispatch]
        unfold runJob
        split
        · exact h
        · rw [cbArrived_congr (detachOne_frame _).1]
          simpa [cbArrived_iff] using hiff

theorem cbArrived_run (ops : List (Op α)) (s : CoreSt α)
    (h : cbArrived s = true) : cbArrived (run s ops).1 = true := by
  induction ops generalizing s with
  | nil => exact h
  | cons o rest ih =>
      rw [run]
      rcases happ : applyOp o s with ⟨s', e⟩
      have h' := cbArrived_step o s h
      rw [happ] at h'
      cases e
      · exact ih s' h'
      · exact h'

theorem run_append (s : CoreSt α) (l1 l2 : List (Op α)) :
    run s (l1 ++ l2)
      = match run s l1 with
        | (s1, none) => run s1 l2
        | (s1, some e) => (s1, some e) := by
  induction l1 generalizing s with
  | nil => rfl
  | cons o rest ih =>
      rw [List.cons_append, run, run]
      rcases happ : applyOp o s with ⟨s', e⟩
      cases e
      · exact ih s'
      · rfl

/-- With no executor bound, a lifecycle operation keeps the core
executor-free and job-free, only ever appends to `calls` the value
stored in the result slot at the `Done` transition, and only ever
writes the result slot when it was empty — with the argument of
`setResult`, or with the synthesized broken-promise error in
`detachPromise`.  The `hasResult ↔ result present` hypothesis is the
structural invariant tying the state word to the result slot. -/
theorem lifecycle_step (o : Op α) (s : CoreSt α) (hl : o.isLifecycle = true)
    (hex : s.executor = none)
    (h7 : hasResult s = true ↔ s.result.isSome = true) :
    (applyOp o s).1.executor = none
    ∧ (applyOp o s).1.pendingJobs = s.pendingJobs
    ∧ ((applyOp o s).1.calls = s.calls
        ∨ ∃ t, (applyOp o s).1.result = some t
            ∧ (applyOp o s).1.calls = s.calls ++ [t]
            ∧ (applyOp o s).1.fsm = State.done)
    ∧ ((applyOp o s).1.result = s.result
        ∨ (s.result = none
            ∧ ((∃ g, o = Op.setResult g ∧ (applyOp o s).1.result = some g)
               ∨ (o = Op.detachPromise
                   ∧ (applyOp o s).1.result
                       = some (Try.exn Exc.brokenPromise))))) := by
  by_cases hdel : s.deleted = true
  · simp [applyOp, hdel, hex]
  · simp only [Bool.not_eq_true] at hdel
    have happ : applyOp o s = dispatch o s := by simp [applyOp, hdel]
    rw [happ]
    obtain ⟨fsm, att, act, res, hcb, ctx, ex, pr, itr, ihd, cs, hcs, bp, pj, del⟩ := s
    simp only at hex
    subst hex
    simp only [hasResult] at h7
    cases o <;> simp_all [Op.isLifecycle] <;>
      cases fsm <;> cases act <;> rcases res with _ | t <;>
      simp_all [dispatch, setResult, setCallback, activate, deactivate,
        detachFuture, detachPromise, maybeCallback, doCallback,
        detachOne_frame]

theorem prov_step (t : Try α) (o : Op α) (s : CoreSt α)
    (hl : o.isLifecycle = true) (hInv : Inv s) (hp : Prov t s) :
    Prov t (applyOp o s).1 := by
  obtain ⟨hex, hres, hcalls⟩ := hp
  obtain ⟨A, B, C, D⟩ := lifecycle_step o s hl hex hInv.2.2.2.2.2.2
  have hrespost : (applyOp o s).1.result = some t := by
    rcases D with hD | ⟨hnone, _⟩
    · rw [hD, hres]
    · rw [hres] at hnone
      cases hnone
  refine ⟨A, hrespost, ?_⟩
  rcases C with hC | ⟨u, hu1, hu2, _⟩
  · rw [hC]
    exact hcalls
  · intro v hv
    rw [hu2] at hv
    rcases List.mem_append.1 hv with hv | hv
    · exact hcalls v hv
    · have : v = u := by simpa using hv
      rw [hu1] at hrespost
      rw [this]
      exact Option.some_injective _ hrespost

theorem prov_run (t : Try α) (ops : List (Op α)) (s : CoreSt α)
    (hl : ∀ o ∈ ops, o.isLifecycle = true) (hInv : Inv s) (hp : Prov t s) :
    Prov t (run s ops).1 := by
  induction ops generalizing s with
  | nil => exact hp
  | cons o rest ih =>
      rw [run]
      rcases happ : applyOp o s with ⟨s', e⟩
      have hp' : Prov t s' := by
        have := prov_step t o s (hl o (by simp)) hInv hp
        rwa [happ] at this
      have hInv' : Inv s' := by
        have := applyOp_inv o s hInv
        rwa [happ] at this
      cases e
      · exact ih s' (fun o' ho' => hl o' (by simp [ho'])) hInv' hp'
      · exact hp'

theorem provBP_step (o : Op α) (s : CoreSt α) (hl : o.isLifecycle = true)
    (hns : ∀ g : Try α, o ≠ Op.setResult g) (hInv : Inv s) (hp : ProvBP s) :
    ProvBP (applyOp o s).1 := by
  obtain ⟨hex, hres, hcalls⟩ := hp
  obtain ⟨A, B, C, D⟩ := lifecycle_step o s hl hex hInv.2.2.2.2.2.2
  have hrespost : (applyOp o s).1.result = none
      ∨ (applyOp o s).1.result = some (Try.exn Exc.brokenPromise) := by
    rcases D with hD | ⟨hnone, hD⟩
    · rw [hD]
      exact hres
    · rcases hD with ⟨g, hg, _⟩ | ⟨_, hD2⟩
      · exact absurd hg (hns g)
      · right
        exact hD2
  refine ⟨A, hrespost, ?_⟩
  rcases C with hC | ⟨u, hu1, hu2, _⟩
  · rw [hC]
    exact hcalls
  · intro v hv
    rw [hu2] at hv
    rcases List.mem_append.1 hv with hv | hv
    · exact hcalls v hv
    · have hvu : v = u := by simpa using hv
      rcases hrespost with hh | hh
      · rw [hu1] at hh
        cases hh
      · rw [hu1] at hh
        rw [hvu]
        exact Option.some_injective _ hh

theorem provBP_run (ops : List (Op α)) (s : CoreSt α)
    (hl : ∀ o ∈ ops, o.isLifecycle = true)
    (hns : ∀ (g : Try α), Op.setResult g ∉ ops)
    (hInv : Inv s) (hp : ProvBP s) : ProvBP (run s ops).1 := by
  induction ops generalizing s with
  | nil => exact hp
  | cons o rest ih =>
      rw [run]
      rcases happ : applyOp o s with ⟨s', e⟩
      have hp' : ProvBP s' := by
        have := provBP_step o s (hl o (by simp))
          (fun g hg => hns g (by simp [hg])) hInv hp
        rwa [happ] at this
      have hInv' : Inv s' := by
        have := applyOp_inv o s hInv
        rwa [happ] at this
      cases e
      · exact ih s' (fun o' ho' => hl o' (by simp [ho']))
          (fun g hg => hns g (by simp [hg])) hInv' hp'
      · exact hp'

/-- A successful `setResult t` call on an executor-free core leaves the
result slot holding `t` and only `t` ever delivered. -/
theorem setResult_success (t : Try α) (s : CoreSt α) (hInv : Inv s)
    (hex : s.executor = none)
    (hsucc : (applyOp (Op.setResult t) s).2 = none) :
    Prov t (applyOp (Op.setResult t) s).1 := by
  by_cases hdel : s.deleted = true
  · simp [applyOp, hdel] at hsucc
  · simp only [Bool.not_eq_true] at hdel
    have happ : applyOp (Op.setResult t) s = dispatch (Op.setResult t) s := by
      simp [applyOp, hdel]
    rw [happ] at hsucc ⊢
    obtain ⟨h1, h2, h3, h4, h5, h6, h7⟩ := hInv
    obtain ⟨fsm, att, act, res, hcb, ctx, ex, pr, itr, ihd, cs, hcs, bp, pj, del⟩ := s
    simp only at hex
    subst hex
    cases fsm <;> cases act <;>
      simp_all [Prov, dispatch, setResult, maybeCallback, doCallback, hasResult]

/-- Split a legal run at any operation occurring in it. -/
theorem run_mem_split (s : CoreSt α) (ops : List (Op α)) (o : Op α)
    (hmem : o ∈ ops) (hleg : (run s ops).2 = none) :
    ∃ l1 l2, ops = l1 ++ o :: l2
      ∧ (run s l1).2 = none
      ∧ (applyOp o (run s l1).1).2 = none
      ∧ (run (applyOp o (run s l1).1).1 l2).2 = none
      ∧ (run s ops).1 = (run (applyOp o (run s l1).1).1 l2).1 := by
  obtain ⟨l1, l2, rfl⟩ := List.append_of_mem hmem
  have hra := run_append s l1 (o :: l2)
  rcases hr1 : run s l1 with ⟨s1, e1⟩
  rw [hr1] at hra
  cases e1 with
  | some e =>
      rw [hra] at hleg
      simp at hleg
  | none =>
      simp only [run] at hra
      rcases happ : applyOp o s1 with ⟨s2, e2⟩
      rw [happ] at hra
      cases e2 with
      | some e =>
          rw [hra] at hleg
          simp at hleg
      | none =>
          refine ⟨l1, l2, rfl, by rw [hr1], ?_, ?_, ?_⟩
          · rw [hr1, happ]
          · rw [hr1]
            simp only [happ]
            rw [hra] at hleg
            exact hleg
          · rw [hr1]
            simp only [happ]
            rw [hra]

theorem core4_lifecycle (o : Op α) (h : o.isCore4 = true) :
    o.isLifecycle = true := by
  cases o <;> simp_all [Op.isCore4, Op.isLifecycle]

theorem noexec_run (ops : List (Op α)) (s : CoreSt α)
    (hl : ∀ o ∈ ops, o.isLifecycle = true) (hInv : Inv s)
    (hex : s.executor = none) :
    (run s ops).1.executor = none
    ∧ (run s ops).1.pendingJobs = s.pendingJobs := by
  induction ops generalizing s with
  | nil => exact ⟨hex, rfl⟩
  | cons o rest ih =>
      rw [run]
      rcases happ : applyOp o s with ⟨s', e⟩
      obtain ⟨A, B, _, _⟩ :=
        lifecycle_step o s (hl o (by simp)) hex hInv.2.2.2.2.2.2
      rw [happ] at A B
      have hInv' : Inv s' := by
        have := applyOp_inv o s hInv
        rwa [happ] at this
      cases e
      · obtain ⟨A', B'⟩ := ih s' (fun o' ho' => hl o' (by simp [ho'])) hInv' A
        exact ⟨A', by rw [B', B]⟩
      · exact ⟨A, B⟩

theorem setResult_success_hasResult (t : Try α) (s : CoreSt α)
    (hsucc : (applyOp (Op.setResult t) s).2 = none) :
    hasResult (applyOp (Op.setResult t) s).1 = true := by
  by_cases hdel : s.deleted = true
  · simp [applyOp, hdel] at hsucc
  · simp only [Bool.not_eq_true] at hdel
    have happ : applyOp (Op.setResult t) s = dispatch (Op.setResult t) s := by
      simp [applyOp, hdel]
    rw [happ] at hsucc ⊢
    cases hf : s.fsm
    · simp [dispatch, setResult, hf, hasResult]
    · simp [dispatch, setResult, hf] at hsucc
    · simp only [dispatch, setResult, hf]
      apply hasResult_maybeCallback
      rw [hasResult_iff]
      simp
    · simp [dispatch, setResult, hf] at hsucc
    · simp [dispatch, setResult, hf] at hsucc

theorem setCallback_success_cbArrived (c : Nat) (s : CoreSt α)
    (hsucc : (applyOp (Op.setCallback c) s).2 = none) :
    cbArrived (applyOp (Op.setCallback c) s).1 = true := by
  by_cases hdel : s.deleted = true
  · simp [applyOp, hdel] at hsucc
  · simp only [Bool.not_eq_true] at hdel
    have happ : applyOp (Op.setCallback c) s = dispatch (Op.setCallback c) s := by
      simp [applyOp, hdel]
    rw [happ] at hsucc ⊢
    cases hf : s.fsm
    · simp [dispatch, setCallback, hf, cbArrived]
    · simp only [dispatch, setCallback, hf]
      apply cbArrived_maybeCallback
      rw [cbArrived_iff]
      simp
    · simp [dispatch, setCallback, hf] at hsucc
    · simp [dispatch, setCallback, hf] at hsucc
    · simp [dispatch, setCallback, hf] at hsucc

theorem noCb_step (o : Op α) (s : CoreSt α) (h4 : o.isCore4 = true)
    (hnc : ∀ c, o ≠ Op.setCallback c)
    (hf : s.fsm = State.start ∨ s.fsm = State.onlyResult) :
    (applyOp o s).1.fsm = State.start
    ∨ (applyOp o s).1.fsm = State.onlyResult := by
  by_cases hdel : s.deleted = true
  · simpa [applyOp, hdel] using hf
  · simp only [Bool.not_eq_true] at hdel
    have happ : applyOp o s = dispatch o s := by simp [applyOp, hdel]
    rw [happ]
    cases o with
    | setResult t => rcases hf with hf | hf <;> simp [dispatch, setResult, hf]
    | setCallback c => exact absurd rfl (hnc c)
    | activate =>
        rcases hf with hf | hf <;>
          simp [dispatch, activate, maybeCallback, hf]
    | deactivate => simpa [dispatch, deactivate] using hf
    | detachFuture => simp [Op.isCore4] at h4
    | detachPromise => simp [Op.isCore4] at h4
    | setExecutor x p => simp [Op.isCore4] at h4
    | raise e => simp [Op.isCore4] at h4
    | setInterruptHandler => simp [Op.isCore4] at h4
    | runJob => simp [Op.isCore4] at h4

theorem noCb_run (ops : List (Op α)) (s : CoreSt α)
    (h4 : ∀ o ∈ ops, o.isCore4 = true)
    (hnc : ∀ c, Op.setCallback c ∉ ops)
    (hf : s.fsm = State.start ∨ s.fsm = State.onlyResult) :
    (run s ops).1.fsm = State.start
    ∨ (run s ops).1.fsm = State.onlyResult := by
  induction ops generalizing s with
  | nil => exact hf
  | cons o rest ih =>
      rw [run]
      rcases happ : applyOp o s with ⟨s', e⟩
      have hf' : s'.fsm = State.start ∨ s'.fsm = State.onlyResult := by
        have := noCb_step o s (h4 o (by simp))
          (fun c hc => hnc c (by simp [hc])) hf
        rwa [happ] at this
      cases e
      · exact ih s' (fun o' ho' => h4 o' (by simp [ho']))
          (fun c hc => hnc c (by simp [hc])) hf'
      · exact hf'

/-- A rendezvous operation changes the delivery record only by a step
whose post-state is `Done` and whose pre-state is not: the callback is
invoked only on the `Armed → Done` transition of `maybeCallback`. -/
theorem core4_calls_step (o : Op α) (u : CoreSt α) (h4 : o.isCore4 = true)
    (hne : (applyOp o u).1.calls ≠ u.calls) :
    u.fsm ≠ State.done ∧ (applyOp o u).1.fsm = State.done := by
  by_cases hdel : u.deleted = true
  · simp [applyOp, hdel] at hne
  · simp only [Bool.not_eq_true] at hdel
    have happ : applyOp o u = dispatch o u := by simp [applyOp, hdel]
    rw [happ] at hne ⊢
    obtain ⟨fsm, att, act, res, hcb, ctx, ex, pr, itr, ihd, cs, hcs, bp, pj, del⟩ := u
    cases o <;> simp_all [Op.isCore4] <;>
      cases fsm <;> cases act <;>
      rcases ex with _ | ⟨np, xf, fe⟩ <;>
      try cases xf
    all_goals
      rcases res with _ | t <;>
      simp_all [dispatch, setResult, setCallback, activate, deactivate,
        maybeCallback, doCallback]

end FollyCore

namespace FollyCore

/-!
### The claims -/

/-- **C1.** For every legal sequence of `set_result`, `set_callback`,
`activate` and `deactivate` calls on a fresh core, the registered
callback is invoked exactly once (zero times if the consumer never
registers one), and the invocation happens only on the `Armed → Done`
transition performed by `maybeCallback`.  Formally, for the final
state of any legal run of those four operations: at most one delivery
ever happens; a delivery has happened exactly when the state word is
`Done`; no `setCallback` in the history means no delivery; a history
containing both a `setCallback` and a `setResult` whose final state is
active has exactly one delivery; and any single rendezvous operation
that changes the delivery record is one whose pre-state is not `Done`
and whose post-state is `Done` (the `maybeCallback` transition). -/
theorem c1_callback_exactly_once (α : Type) (ops : List (Op α))
    (hco : ∀ o ∈ ops, o.isCore4 = true)
    (hleg : (run (coreInit α) ops).2 = none) :
    (run (coreInit α) ops).1.calls.length ≤ 1
    ∧ ((run (coreInit α) ops).1.calls.length = 1
        ↔ (run (coreInit α) ops).1.fsm = State.done)
    ∧ ((∀ c, Op.setCallback c ∉ ops) → (run (coreInit α) ops).1.calls = [])
    ∧ ((∃ c, Op.setCallback c ∈ ops) → (∃ t, Op.setResult t ∈ ops)
        → (run (coreInit α) ops).1.active = true
        → (run (coreInit α) ops).1.calls.length = 1)
    ∧ (∀ (o : Op α) (u : CoreSt α), o.isCore4 = true
        → (applyOp o u).1.calls ≠ u.calls
        → u.fsm ≠ State.done ∧ (applyOp o u).1.fsm = State.done) := by
  have hInv := run_inv ops (coreInit α) (inv_coreInit α)
  have hl : ∀ o ∈ ops, o.isLifecycle = true :=
    fun o ho => core4_lifecycle o (hco o ho)
  have hpj : (run (coreInit α) ops).1.pendingJobs = 0 :=
    (noexec_run ops (coreInit α) hl (inv_coreInit α) rfl).2
  obtain ⟨k1, k2, _, _, _, _, _⟩ := hInv
  rw [hpj] at k2
  have hlen : (run (coreInit α) ops).1.calls.length
      = (if (run (coreInit α) ops).1.fsm = State.done then 1 else 0) := by
    simpa using k2
  refine ⟨?_, ?_, ?_, ?_, ?_⟩
  · rw [hlen]
    split <;> simp
  · rw [hlen]
    split <;> simp [*]
  · intro hnc
    have hf := noCb_run ops (coreInit α) hco hnc (Or.inl rfl)
    have hnd : (run (coreInit α) ops).1.fsm ≠ State.done := by
      rcases hf with hf | hf <;> simp [hf]
    have h0 : (run (coreInit α) ops).1.calls.length = 0 := by
      rw [hlen, if_neg hnd]
    exact List.length_eq_zero.1 h0
  · rintro ⟨c, hcmem⟩ ⟨t, htmem⟩ hact
    have hhr : hasResult (run (coreInit α) ops).1 = true := by
      obtain ⟨l1, l2, heq, hleg1, hsucc, hleg2, hfin⟩ :=
        run_mem_split (coreInit α) ops _ htmem hleg
      rw [hfin]
      exact hasResult_run _ _ (setResult_success_hasResult t _ hsucc)
    have hcb : cbArrived (run (coreInit α) ops).1 = true := by
      obtain ⟨l1, l2, heq, hleg1, hsucc, hleg2, hfin⟩ :=
        run_mem_split (coreInit α) ops _ hcmem hleg
      rw [hfin]
      exact cbArrived_run _ _ (setCallback_success_cbArrived c _ hsucc)
    have hdone : (run (coreInit α) ops).1.fsm = State.done := by
      rcases (hasResult_iff _).1 hhr with hf | hf | hf <;>
        rcases (cbArrived_iff _).1 hcb with hg | hg | hg <;>
        first
          | (exact hf)
          | (exact hg)
          | (exact absurd hf (k1 hact))
          | (rw [hf] at hg; cases hg)
    simp [hdone] at hlen
    exact hlen
  · exact fun o u h4 hne => core4_calls_step o u h4 hne

end FollyCore

namespace FollyCore

/-- **C1 counterexample.** A legal sequence of the four rendezvous
operations that registers a callback and supplies a result but —
because dispatch is left deactivated — never invokes the callback:
the unconditional "exactly once" of the claim fails as stated. -/
theorem c1_cex_deactivated_rendezvous :
    (run (coreInit Nat)
        [Op.deactivate, Op.setCallback 0, Op.setResult (Try.val 3)]).2 = none
    ∧ Op.setCallback 0
        ∈ ([Op.deactivate, Op.setCallback 0, Op.setResult (Try.val 3)]
            : List (Op Nat))
    ∧ (run (coreInit Nat)
        [Op.deactivate, Op.setCallback 0, Op.setResult (Try.val 3)]).1.calls
        = [] := by
  decide

/-- Witness for C1: the concrete legal history
`[setCallback, setResult (Value 3)]` over `Nat`. -/
theorem c1_callback_exactly_once_witness :
    ((∀ o ∈ ([Op.setCallback 0, Op.setResult (Try.val 3)] : List (Op Nat)),
        o.isCore4 = true)
      ∧ (run (coreInit Nat) [Op.setCallback 0, Op.setResult (Try.val 3)]).2
          = none)
    ∧ ((run (coreInit Nat)
          [Op.setCallback 0, Op.setResult (Try.val 3)]).1.calls.length ≤ 1
      ∧ ((run (coreInit Nat)
            [Op.setCallback 0, Op.setResult (Try.val 3)]).1.calls.length = 1
          ↔ (run (coreInit Nat)
              [Op.setCallback 0, Op.setResult (Try.val 3)]).1.fsm = State.done)
      ∧ ((∀ c, Op.setCallback c
              ∉ ([Op.setCallback 0, Op.setResult (Try.val 3)] : List (Op Nat)))
          → (run (coreInit Nat)
              [Op.setCallback 0, Op.setResult (Try.val 3)]).1.calls = [])
      ∧ ((∃ c, Op.setCallback c
              ∈ ([Op.setCallback 0, Op.setResult (Try.val 3)] : List (Op Nat)))
          → (∃ t, Op.setResult t
              ∈ ([Op.setCallback 0, Op.setResult (Try.val 3)] : List (Op Nat)))
          → (run (coreInit Nat)
              [Op.setCallback 0, Op.setResult (Try.val 3)]).1.active = true
          → (run (coreInit Nat)
              [Op.setCallback 0, Op.setResult (Try.val 3)]).1.calls.length = 1)
      ∧ (∀ (o : Op Nat) (u : CoreSt Nat), o.isCore4 = true
          → (applyOp o u).1.calls ≠ u.calls
          → u.fsm ≠ State.done ∧ (applyOp o u).1.fsm = State.done)) :=
  ⟨⟨by decide, by decide⟩,
    c1_callback_exactly_once Nat _ (by decide) (by decide)⟩

theorem hasResult_false_iff (s : CoreSt α) :
    hasResult s = false
      ↔ (s.fsm = State.start ∨ s.fsm = State.onlyCallback) := by
  cases hf : s.fsm <;> simp [hasResult, hf]

/-- **C2.** For any legal lifecycle history on a fresh executor-free
core, every `Try` delivered to the callback equals the `Try` passed to
`set_result`; and when no `set_result` call occurs in the history (so
only `detachPromise` can have installed a result), every delivered
`Try` is the synthesized `BrokenPromise` error. -/
theorem c2_delivered_value (α : Type) (ops : List (Op α))
    (hl : ∀ o ∈ ops, o.isLifecycle = true)
    (hleg : (run (coreInit α) ops).2 = none) :
    (∀ t : Try α, Op.setResult t ∈ ops
        → ∀ u ∈ (run (coreInit α) ops).1.calls, u = t)
    ∧ ((∀ t : Try α, Op.setResult t ∉ ops)
        → ∀ u ∈ (run (coreInit α) ops).1.calls,
            u = Try.exn Exc.brokenPromise) := by
  constructor
  · intro t htmem u hu
    obtain ⟨l1, l2, heq, hleg1, hsucc, hleg2, hfin⟩ :=
      run_mem_split (coreInit α) ops _ htmem hleg
    have hInv1 : Inv (run (coreInit α) l1).1 :=
      run_inv _ _ (inv_coreInit α)
    have hl1 : ∀ o ∈ l1, o.isLifecycle = true := by
      intro o ho
      exact hl o (by rw [heq]; exact List.mem_append_left _ ho)
    have hex1 : (run (coreInit α) l1).1.executor = none :=
      (noexec_run l1 (coreInit α) hl1 (inv_coreInit α) rfl).1
    have hprov2 : Prov t (applyOp (Op.setResult t) (run (coreInit α) l1).1).1 :=
      setResult_success t _ hInv1 hex1 hsucc
    have hInv2 : Inv (applyOp (Op.setResult t) (run (coreInit α) l1).1).1 :=
      applyOp_inv _ _ hInv1
    have hl2 : ∀ o ∈ l2, o.isLifecycle = true := by
      intro o ho
      refine hl o ?_
      rw [heq]
      exact List.mem_append_right _ (by simp [ho])
    have hfinal := prov_run t l2 _ hl2 hInv2 hprov2
    rw [hfin] at hu
    exact hfinal.2.2 u hu
  · intro hns u hu
    have hfinal := provBP_run ops (coreInit α) hl hns (inv_coreInit α)
      ⟨rfl, Or.inl rfl, by simp [coreInit]⟩
    exact hfinal.2.2 u hu

/-- Witness for C2: the concrete legal history
`[setCallback, detachPromise]` over `Nat` (broken-promise delivery). -/
theorem c2_delivered_value_witness :
    ((∀ o ∈ ([Op.setCallback 0, Op.detachPromise] : List (Op Nat)),
        o.isLifecycle = true)
      ∧ (run (coreInit Nat) [Op.setCallback 0, Op.detachPromise]).2 = none)
    ∧ ((∀ t : Try Nat,
          Op.setResult t ∈ ([Op.setCallback 0, Op.detachPromise] : List (Op Nat))
          → ∀ u ∈ (run (coreInit Nat)
              [Op.setCallback 0, Op.detachPromise]).1.calls, u = t)
      ∧ ((∀ t : Try Nat,
            Op.setResult t ∉ ([Op.setCallback 0, Op.detachPromise] : List (Op Nat)))
          → ∀ u ∈ (run (coreInit Nat)
              [Op.setCallback 0, Op.detachPromise]).1.calls,
              u = Try.exn Exc.brokenPromise)) :=
  ⟨⟨by decide, by decide⟩, c2_delivered_value Nat _ (by decide) (by decide)⟩

/-- **C3.** Evidence for the attachment leak on failed executor
submission: with an executor whose `add` throws bound, a complete
rendezvous delivers the submission error to the callback inline
exactly once (that part of the claim holds), but the `++attached_`
bump taken before the failed submission is never undone — the count is
3 right after dispatch (versus 2 had no dispatch been attempted), and
after both handles detach it is stuck at 1, so `delete this` never
runs: the core leaks, contradicting the claim that the bump does not
take effect. -/
theorem c3_failed_submission_leaks_attachment :
    (run (coreInit Nat)
        [Op.setExecutor (some throwingExec) 0, Op.setCallback 0,
         Op.setResult (Try.val 5)]).1.calls = [Try.exn (Exc.other 7)]
    ∧ (run (coreInit Nat)
        [Op.setExecutor (some throwingExec) 0, Op.setCallback 0,
         Op.setResult (Try.val 5)]).1.attached = 3
    ∧ (run (coreInit Nat)
        [Op.setCallback 0, Op.setResult (Try.val 5)]).1.attached = 2
    ∧ (run (coreInit Nat)
        [Op.setExecutor (some throwingExec) 0, Op.setCallback 0,
         Op.setResult (Try.val 5), Op.detachFuture, Op.detachPromise]).2 = none
    ∧ (run (coreInit Nat)
        [Op.setExecutor (some throwingExec) 0, Op.setCallback 0,
         Op.setResult (Try.val 5), Op.detachFuture,
         Op.detachPromise]).1.attached = 1
    ∧ (run (coreInit Nat)
        [Op.setExecutor (some throwingExec) 0, Op.setCallback 0,
         Op.setResult (Try.val 5), Op.detachFuture,
         Op.detachPromise]).1.deleted = false := by
  decide

/-- **C4 counterexample.** Not every core is created with
`attached = 2`: the result-constructor `Core(Try<T>&&)` initializes
`attached_` to 1. -/
theorem c4_cex_attached_init :
    ¬ ((coreInitWithResult (Try.val (0 : Nat))).attached = 2) := by
  decide

/-- **C4 (amended).** A default-constructed core starts with
`attached = 2` and a core constructed from a ready result starts with
`attached = 1`; from either constructor, along every operation history
the counter stays within {0,1,2,3}, and the core is deleted exactly
when a `detachOne` decrement brings the counter to 0 — deleted if and
only if the counter is 0, never before. -/
theorem c4_attached_lifecycle (α : Type) (ops : List (Op α)) (t : Try α) :
    (coreInit α).attached = 2
    ∧ (coreInitWithResult t).attached = 1
    ∧ (run (coreInit α) ops).1.attached ≤ 3
    ∧ ((run (coreInit α) ops).1.deleted = true
        ↔ (run (coreInit α) ops).1.attached = 0)
    ∧ (run (coreInitWithResult t) ops).1.attached ≤ 3
    ∧ ((run (coreInitWithResult t) ops).1.deleted = true
        ↔ (run (coreInitWithResult t) ops).1.attached = 0) := by
  obtain ⟨_, _, _, hbu1, hat1, hd1, _⟩ := run_inv ops (coreInit α) (inv_coreInit α)
  obtain ⟨_, _, _, hbu2, hat2, hd2, _⟩ :=
    run_inv ops (coreInitWithResult t) (inv_coreInitWithResult t)
  exact ⟨rfl, rfl, by omega, hd1, by omega, hd2⟩

/-- **C5.** Calling `set_result` in state `OnlyResult`, `Armed` or
`Done`, or `set_callback` in state `OnlyCallback`, `Armed` or `Done`,
raises the immediate fatal `std::logic_error` (the ResultAlreadySet /
CallbackAlreadySet contract violations, thrown as "setResult called
twice" / "setCallback called twice") out of the offending call itself,
and the delivery record is untouched — the error is never delivered
through the registered callback. -/
theorem c5_double_set_fatal (α : Type) (s : CoreSt α) (t : Try α) (c : Nat) :
    ((s.fsm = State.onlyResult ∨ s.fsm = State.armed ∨ s.fsm = State.done)
      → (setResult t s).2 = some (RunErr.logicError "setResult called twice")
        ∧ (setResult t s).1.calls = s.calls)
    ∧ ((s.fsm = State.onlyCallback ∨ s.fsm = State.armed ∨ s.fsm = State.done)
      → (setCallback c s).2 = some (RunErr.logicError "setCallback called twice")
        ∧ (setCallback c s).1.calls = s.calls) := by
  constructor
  · rintro (hf | hf | hf) <;> simp [setResult, hf]
  · rintro (hf | hf | hf) <;> simp [setCallback, hf]

/-- Witness for C5 at a concrete core in the `Done` state. -/
theorem c5_double_set_fatal_witness :
    doneSt.fsm = State.done
    ∧ ((setResult (Try.val 2) doneSt).2
          = some (RunErr.logicError "setResult called twice")
        ∧ (setResult (Try.val 2) doneSt).1.calls = doneSt.calls)
    ∧ ((setCallback 1 doneSt).2
          = some (RunErr.logicError "setCallback called twice")
        ∧ (setCallback 1 doneSt).1.calls = doneSt.calls) := by
  obtain ⟨ha, hb⟩ := c5_double_set_fatal Nat doneSt (Try.val 2) 1
  exact ⟨by decide, ha (Or.inr (Or.inr (by decide))),
    hb (Or.inr (Or.inr (by decide)))⟩

/-- **C6.** For `raise(e)` and `set_interrupt_handler(h)` in either
order on a core with no result, no pending interrupt and no handler
yet, the first of the two calls performs no invocation and the second
invokes the handler with `e`, exactly once — a subsequent `raise` is a
no-op; and whichever of the two calls observes a result leaves the
core entirely unchanged (the payload is dropped, no invocation). -/
theorem c6_interrupt_rendezvous (α : Type) (s : CoreSt α) (e e2 : Exc) :
    (hasResult s = false → s.interrupt = none → s.interruptHandler = false →
      (raise e s).handlerCalls = s.handlerCalls
      ∧ (setInterruptHandler (raise e s)).handlerCalls = s.handlerCalls ++ [e]
      ∧ (setInterruptHandler s).handlerCalls = s.handlerCalls
      ∧ (raise e (setInterruptHandler s)).handlerCalls = s.handlerCalls ++ [e]
      ∧ (raise e2 (setInterruptHandler (raise e s))).handlerCalls
          = s.handlerCalls ++ [e]
      ∧ (raise e2 (raise e (setInterruptHandler s))).handlerCalls
          = s.handlerCalls ++ [e])
    ∧ (hasResult s = true →
        raise e s = s ∧ setInterruptHandler s = s) := by
  constructor
  · intro hr hi hh
    rcases (hasResult_false_iff s).1 hr with hf | hf <;>
      simp [raise, setInterruptHandler, hasResult, hf, hi, hh]
  · intro hr
    constructor
    · simp [raise, hr]
    · simp [setInterruptHandler, hr]

/-- Witness for C6: a fresh core (no result) for the rendezvous, and a
`Done`-state core for the drop behaviour. -/
theorem c6_interrupt_rendezvous_witness :
    (setInterruptHandler (raise (Exc.other 3) (coreInit Nat))).handlerCalls
        = [Exc.other 3]
    ∧ (raise (Exc.other 3) (setInterruptHandler (coreInit Nat))).handlerCalls
        = [Exc.other 3]
    ∧ raise (Exc.other 3) doneSt = doneSt
    ∧ setInterruptHandler doneSt = doneSt := by
  obtain ⟨hA, _⟩ :=
    c6_interrupt_rendezvous Nat (coreInit Nat) (Exc.other 3) (Exc.other 4)
  obtain ⟨_, hB⟩ :=
    c6_interrupt_rendezvous Nat doneSt (Exc.other 3) (Exc.other 4)
  obtain ⟨_, h2, _, h4, _⟩ := hA (by decide) (by decide) (by decide)
  obtain ⟨hb1, hb2⟩ := hB (by decide)
  exact ⟨by simpa using h2, by simpa using h4, hb1, hb2⟩

/-- **C7.** With `deactivate()` in effect, setting callback and result
(in either order) leaves the state `Armed` with the callback not
invoked; a subsequent `activate()` transitions to `Done` and invokes
the callback with the set result. -/
theorem c7_deactivate_defers (α : Type) (t : Try α) (c : Nat) :
    ((run (coreInit α)
        [Op.deactivate, Op.setCallback c, Op.setResult t]).1.fsm = State.armed
      ∧ (run (coreInit α)
          [Op.deactivate, Op.setCallback c, Op.setResult t]).1.calls = []
      ∧ (run (coreInit α)
          [Op.deactivate, Op.setCallback c, Op.setResult t,
           Op.activate]).1.fsm = State.done
      ∧ (run (coreInit α)
          [Op.deactivate, Op.setCallback c, Op.setResult t,
           Op.activate]).1.calls = [t])
    ∧ ((run (coreInit α)
        [Op.deactivate, Op.setResult t, Op.setCallback c]).1.fsm = State.armed
      ∧ (run (coreInit α)
          [Op.deactivate, Op.setResult t, Op.setCallback c]).1.calls = []
      ∧ (run (coreInit α)
          [Op.deactivate, Op.setResult t, Op.setCallback c,
           Op.activate]).1.fsm = State.done
      ∧ (run (coreInit α)
          [Op.deactivate, Op.setResult t, Op.setCallback c,
           Op.activate]).1.calls = [t]) := by
  refine ⟨⟨?_, ?_, ?_, ?_⟩, ?_, ?_, ?_, ?_⟩ <;> rfl

/-- **C8.** `has_result()` is monotonic: from any state in which it
returns true, it returns true again after any further sequence of
operations (until destruction, after which no operation applies). -/
theorem c8_hasResult_monotonic (α : Type) (s : CoreSt α) (ops : List (Op α))
    (h : hasResult s = true) : hasResult (run s ops).1 = true :=
  hasResult_run ops s h

/-- Witness for C8: after `setResult`, `hasResult` stays true across a
further callback registration and both detachments. -/
theorem c8_hasResult_monotonic_witness :
    hasResult (run (coreInit Nat) [Op.setResult (Try.val 7)]).1 = true
    ∧ hasResult
        (run (run (coreInit Nat) [Op.setResult (Try.val 7)]).1
          [Op.setCallback 0, Op.detachFuture, Op.detachPromise]).1 = true :=
  ⟨by decide, c8_hasResult_monotonic Nat _ _ (by decide)⟩

/-- **C9.** Evidence for the uninitialized fail-fast guard: `threw` is
declared `std::atomic<bool> threw;` and never initialized, so its
initial value is indeterminate.  When the indeterminate value reads
`true`, a single successful input produces no fulfillment at all
(promise never set by the context), contradicting the claimed
delivery; with the clearly intended initial value `false`, the claimed
behaviour holds on the same inputs: the tuple of unwrapped values on
all-success, and the first observed error (set exactly once) when some
input fails. -/
theorem c9_uninitialized_collect_guard :
    (collectRun Nat true 1 [(0, Try.val 42)]).promiseVal = none
    ∧ (collectRun Nat true 1 [(0, Try.val 42)]).promiseSets = 0
    ∧ (collectRun Nat false 1 [(0, Try.val 42)]).promiseVal
        = some (PromiseOut.value [some 42])
    ∧ (collectRun Nat false 3
        [(0, Try.val 1), (1, Try.exn (Exc.other 3)),
         (2, Try.exn (Exc.other 4))]).promiseVal
        = some (PromiseOut.error (Exc.other 3))
    ∧ (collectRun Nat false 3
        [(0, Try.val 1), (1, Try.exn (Exc.other 3)),
         (2, Try.exn (Exc.other 4))]).promiseSets = 1 := by
  decide

/-- **C10.** When `set_result` or `set_callback` raises its fatal
error, the core is left completely unchanged — same state word, same
result slot, same callback slot, and same captured request context
(the installing action runs only inside a successful transition). -/
theorem c10_failed_ingress_no_mutation (α : Type) (s : CoreSt α)
    (t : Try α) (c : Nat) :
    (∀ e, (setResult t s).2 = some e → (setResult t s).1 = s)
    ∧ (∀ e, (setCallback c s).2 = some e → (setCallback c s).1 = s) := by
  constructor
  · intro e he
    cases hf : s.fsm <;> simp [setResult, hf] at he ⊢
  · intro e he
    cases hf : s.fsm <;> simp [setCallback, hf] at he ⊢

/-- Witness for C10 at a concrete core in the `Done` state. -/
theorem c10_failed_ingress_no_mutation_witness :
    ((setResult (Try.val 2) doneSt).2
        = some (RunErr.logicError "setResult called twice")
      ∧ (setResult (Try.val 2) doneSt).1 = doneSt)
    ∧ ((setCallback 1 doneSt).2
        = some (RunErr.logicError "setCallback called twice")
      ∧ (setCallback 1 doneSt).1 = doneSt) := by
  obtain ⟨ha, hb⟩ := c10_failed_ingress_no_mutation Nat doneSt (Try.val 2) 1
  exact ⟨⟨by decide,
      ha (RunErr.logicError "setResult called twice") (by decide)⟩,
    ⟨by decide,
      hb (RunErr.logicError "setCallback called twice") (by decide)⟩⟩

end FollyCore
